import Mathlib

/-!
Verification of the `qf` quotient-filter package (Go).

The Go source is shallowly embedded: `uint64` values are naturals with
explicit reduction modulo `2 ^ 64` wherever Go wraps, Go `int` (64-bit
signed) arithmetic is embedded into `Int` with explicit two's-complement
wrapping, the backing `[]uint64` slice is a `List Nat`, and every Go loop
becomes a fuel-indexed recursion returning `Option` (`none` = fuel
exhausted).  The pluggable 64-bit hasher is abstracted away: `Add`,
`Contains` and `Delete` depend on a key only through its 64-bit digest, so
the embedded operations take that digest (`h : Nat`) directly.
-/

/-- `2 ^ 64`, the modulus of Go `uint64` arithmetic. -/
def M64 : Nat := 2 ^ 64

/-- Go `x << k` on `uint64`: shift then keep the low 64 bits.  For `k ≥ 64`
Go produces 0, which the reduction modulo `2 ^ 64` reproduces. -/
def shl64 (x k : Nat) : Nat := (x <<< k) % M64

/-- Go `^x` (bitwise complement) on a `uint64` value `x < 2 ^ 64`. -/
def comp64 (x : Nat) : Nat := x ^^^ (M64 - 1)

/-- Go two's-complement wrap of an integer into `int64` range. -/
def wrap64 (z : Int) : Int := (z + 2 ^ 63) % 2 ^ 64 - 2 ^ 63

/-- `func maskLower(e uint64) uint64 { return (1 << e) - 1 }` (src/util.go).
The subtraction wraps: for `e ≥ 64` the shift is 0 and the result is
`2 ^ 64 - 1`. -/
def maskLower (e : Nat) : Nat := (shl64 1 e + M64 - 1) % M64

/-- `func uint64Size(q, r uint8) int` (src/util.go): the length given to
`make([]uint64, ...)` in `New`.  `bits` is computed in Go `int` arithmetic
(`(1 << q) * int(r+3)`), which wraps at `2 ^ 63`; the divisions are Go's
truncated division.  `r + 3` is a `uint8` sum, hence the `% 256`. -/
def uint64Size (q r : Nat) : Int :=
  let bits : Int := wrap64 (wrap64 ((2 : Int) ^ q) * ((r + 3) % 256 : Nat))
  let bytes : Int := bits.tdiv 8
  if bits.tmod 8 ≠ 0 then bytes + 1 else bytes

/-- The state of `type QuotientFilter struct` (src/qf.go): quotient and
remainder bit widths, current length and the packed data words.  The other
Go fields (`esize`, `cap`, the three masks, the hasher) are set once in
`New` from `qbits`/`rbits` and never reassigned, so they are embedded as
derived functions below. -/
structure QF where
  qbits : Nat
  rbits : Nat
  len : Nat
  data : List Nat
deriving Repr, DecidableEq

/-- `esize = r + 3` (total slot size; `uint8` sum in Go). -/
def QF.ssize (qf : QF) : Nat := (qf.rbits + 3) % 256

/-- `cap = 1 << q` on `uint64`. -/
def QF.cap (qf : QF) : Nat := shl64 1 qf.qbits

/-- `qMask = maskLower(q)`. -/
def QF.qMask (qf : QF) : Nat := maskLower qf.qbits

/-- `rMask = maskLower(r)`. -/
def QF.rMask (qf : QF) : Nat := maskLower qf.rbits

/-- `elemMask = maskLower(esize)`. -/
def QF.sMask (qf : QF) : Nat := maskLower qf.ssize

/-- Read of `data[i]`; out-of-range reads (a Go panic) are totalised to 0. -/
def wordAt (d : List Nat) (i : Nat) : Nat := d.getD i 0

/-- Write of `data[i] = v`; out-of-range writes (a Go panic) are dropped. -/
def setWord (d : List Nat) (i : Nat) (v : Nat) : List Nat := d.set i v

/-- `func New(q, r uint8) *QuotientFilter` (src/qf.go).  `none` models a
panic: the explicit `q + r > 64` check (a `uint8` sum), or `make` receiving
a negative length after `uint64Size` overflows. -/
def goNew (q r : Nat) : Option QF :=
  if (q + r) % 256 > 64 then none
  else
    let n := uint64Size q r
    if n < 0 then none
    else some { qbits := q, rbits := r, len := 0, data := List.replicate n.toNat 0 }

/-- `func (qf *QuotientFilter) quotientAndRemainder(h uint64)` (src/qf.go). -/
def QF.quotientAndRemainder (qf : QF) (h : Nat) : Nat × Nat :=
  ((h >>> qf.rbits) &&& qf.qMask, h &&& qf.rMask)

/-- `func (qf *QuotientFilter) slotIndex(index uint64)` (src/qf.go): global
bit index (a `uint64` product, which wraps), word index, bit offset within
the word, and the signed count of bits spilling into the next word. -/
def QF.slotIndex (qf : QF) (index : Nat) : Nat × Nat × Nat × Int :=
  let bitIndex := qf.ssize * index % M64
  (bitIndex, bitIndex / 64, bitIndex % 64, (bitIndex % 64 : Int) + qf.ssize - 64)

/-- `func (qf *QuotientFilter) element(pos uint64) uint64` (src/qf.go; the
identical method is `getSlot` in the slot-typed copy of the source). -/
def QF.getSlot (qf : QF) (index : Nat) : Nat :=
  let p := qf.slotIndex index
  let si := p.2.1
  let off := p.2.2.1
  let nb := p.2.2.2
  let s := (wordAt qf.data si >>> off) &&& qf.sMask
  if 0 < nb then
    s ||| shl64 (wordAt qf.data (si + 1) &&& maskLower nb.toNat) (qf.ssize - nb.toNat)
  else s

/-- `func (qf *QuotientFilter) setElement(pos, element uint64)` (src/qf.go;
`setSlot` in the slot-typed copy).  The second word, when the slot spans a
word boundary, is read back after the first write, exactly as in Go. -/
def QF.setSlot (qf : QF) (index : Nat) (e : Nat) : QF :=
  let p := qf.slotIndex index
  let si := p.2.1
  let off := p.2.2.1
  let nb := p.2.2.2
  let e := e &&& qf.sMask
  let w := (wordAt qf.data si &&& comp64 (shl64 qf.sMask off)) ||| shl64 e off
  let d := setWord qf.data si w
  if 0 < nb then
    let w2 := (wordAt d (si + 1) &&& comp64 (maskLower nb.toNat)) |||
      (e >>> (qf.ssize - nb.toNat))
    { qf with data := setWord d (si + 1) w2 }
  else { qf with data := d }

/-- `func (qf *QuotientFilter) previous(pos uint64)` — `(pos - 1) & qMask`
with the `uint64` subtraction wrapping at zero. -/
def QF.previous (qf : QF) (pos : Nat) : Nat := ((pos + M64 - 1) % M64) &&& qf.qMask

/-- `func (qf *QuotientFilter) next(pos uint64)` — `(pos + 1) & qMask`. -/
def QF.next (qf : QF) (pos : Nat) : Nat := ((pos + 1) % M64) &&& qf.qMask

/-- `func newSlot(remainder uint64) slot` — `(int64(remainder) << 3) & ^7`
(src/unnamed/part_000; `Add` in src/qf.go inlines the same expression). -/
def newSlot (r : Nat) : Nat := shl64 r 3 &&& comp64 7

/-- `func (s slot) isOccupied() bool` — tests bit 0. -/
def isOccupied (s : Nat) : Bool := s &&& 1 == 1

/-- `func (s slot) setOccupied() slot`. -/
def setOccupied (s : Nat) : Nat := s ||| 1

/-- `func (s slot) clearOccupied() slot` — `s & ^1`. -/
def clearOccupied (s : Nat) : Nat := s &&& comp64 1

/-- `func (s slot) isContinuation() bool` — tests bit 1. -/
def isContinuation (s : Nat) : Bool := s &&& 2 == 2

/-- `func (s slot) setContinuation() slot`. -/
def setContinuation (s : Nat) : Nat := s ||| 2

/-- `func (s slot) isShifted() bool` — tests bit 2. -/
def isShifted (s : Nat) : Bool := s &&& 4 == 4

/-- `func (s slot) setShifted() slot`. -/
def setShifted (s : Nat) : Nat := s ||| 4

/-- `func (s slot) remainder() uint64` — `s >> 3`. -/
def getRemainder (s : Nat) : Nat := s >>> 3

/-- `func (s slot) isEmpty() bool` — all three metadata bits clear. -/
def isEmptySlot (s : Nat) : Bool := s &&& 7 == 0

/-- `func (s slot) isClusterStart() bool` (src/unnamed/part_000). -/
def isClusterStart (s : Nat) : Bool := isOccupied s && !isContinuation s && !isShifted s

/-- `func (s slot) isRunStart() bool` (src/unnamed/part_000, lines 488-490):
`s.isContinuation() && (s.isOccupied() || s.isShifted())` — transcribed
exactly as written, with no negation on the continuation test. -/
def isRunStart (s : Nat) : Bool := isContinuation s && (isOccupied s || isShifted s)

/-- First loop of `findRun`: walk left while the slot is shifted. -/
def QF.walkLeft : Nat → QF → Nat → Option Nat
  | 0, _, _ => none
  | fuel + 1, qf, index =>
    if !isShifted (qf.getSlot index) then some index
    else qf.walkLeft fuel (qf.previous index)

/-- Inner loop of `findRun`: advance `run` past one run (`run = next(run)`
until the landing slot is not a continuation). -/
def QF.skipRun : Nat → QF → Nat → Option Nat
  | 0, _, _ => none
  | fuel + 1, qf, run =>
    let run' := qf.next run
    if !isContinuation (qf.getSlot run') then some run'
    else qf.skipRun fuel run'

/-- Inner loop of `findRun`: advance `index` to the next occupied slot. -/
def QF.seekOccupied : Nat → QF → Nat → Option Nat
  | 0, _, _ => none
  | fuel + 1, qf, index =>
    let index' := qf.next index
    if isOccupied (qf.getSlot index') then some index'
    else qf.seekOccupied fuel index'

/-- Outer loop of `findRun`: pair runs with occupied markers until the
probe reaches the canonical quotient. -/
def QF.findRunLoop : Nat → QF → Nat → Nat → Nat → Option Nat
  | 0, _, _, _, _ => none
  | fuel + 1, qf, run, index, quotient =>
    if index == quotient then some run
    else do
      let run' ← qf.skipRun (fuel + 1) run
      let index' ← qf.seekOccupied (fuel + 1) index
      qf.findRunLoop fuel run' index' quotient

/-- `func (qf *QuotientFilter) findRun(q uint64) uint64` (src/qf.go). -/
def QF.findRun (fuel : Nat) (qf : QF) (quotient : Nat) : Option Nat := do
  let index ← qf.walkLeft fuel quotient
  qf.findRunLoop fuel index index quotient

/-- The scan loop of `Contains` (src/qf.go): compare remainders in a run. -/
def QF.containsScan : Nat → QF → Nat → Nat → Option Bool
  | 0, _, _, _ => none
  | fuel + 1, qf, index, r =>
    let rem := getRemainder (qf.getSlot index)
    if rem == r then some true
    else if rem > r then some false
    else
      let index' := qf.next index
      if !isContinuation (qf.getSlot index') then some false
      else qf.containsScan fuel index' r

/-- `func (qf *QuotientFilter) Contains(key string) bool` (src/qf.go).  The
key enters only through its 64-bit hash `h`.  The filter state is threaded
through and returned so that the absence of writes is a statement, not a
typing accident: the body contains no `setSlot` and returns `qf` itself. -/
def goContains (fuel : Nat) (qf : QF) (h : Nat) : Option (Bool × QF) :=
  let q := (qf.quotientAndRemainder h).1
  let r := (qf.quotientAndRemainder h).2
  if !isOccupied (qf.getSlot q) then some (false, qf)
  else do
    let start ← qf.findRun fuel q
    let b ← qf.containsScan fuel start r
    some (b, qf)

/-- `func (qf *QuotientFilter) insert(pos, e uint64)` (src/qf.go; called
`insertSlot` in the slot-typed copy): the shift-right insertion cascade. -/
def QF.insertLoop : Nat → QF → Nat → Nat → Option QF
  | 0, _, _, _ => none
  | fuel + 1, qf, pos, cur =>
    let prev := qf.getSlot pos
    let empty := isEmptySlot prev
    let pair :=
      if empty then (cur, prev)
      else
        let prev' := setShifted prev
        if isOccupied prev' then (setOccupied cur, clearOccupied prev')
        else (cur, prev')
    let qf' := qf.setSlot pos pair.1
    if empty then some qf'
    else qf'.insertLoop fuel (qf.next pos) pair.2

/-- The run-scan loop of `Add` (src/qf.go): `some none` means the remainder
is already present (`Add` returns `nil` without inserting), `some (some i)`
is the insertion point, `none` is fuel exhaustion. -/
def QF.addScan : Nat → QF → Nat → Nat → Option (Option Nat)
  | 0, _, _, _ => none
  | fuel + 1, qf, index, r =>
    let rem := getRemainder (qf.getSlot index)
    if r == rem then some none
    else if rem > r then some (some index)
    else
      let index' := qf.next index
      if !isContinuation (qf.getSlot index') then some (some index')
      else qf.addScan fuel index' r

/-- Result of `Add`: `full` carries the (unchanged) receiver state returned
alongside `ErrFull`; `ok` carries the updated state. -/
inductive AddResult where
  | full (qf : QF)
  | ok (qf : QF)
deriving Repr, DecidableEq

/-- `func (qf *QuotientFilter) Add(key string) error` (src/qf.go).  The key
enters only through its 64-bit hash `h`. -/
def goAdd (fuel : Nat) (qf0 : QF) (h : Nat) : Option AddResult :=
  if qf0.len ≥ qf0.cap then some (.full qf0)
  else
    let q := (qf0.quotientAndRemainder h).1
    let r := (qf0.quotientAndRemainder h).2
    let slot := qf0.getSlot q
    let new0 := newSlot r
    if isEmptySlot slot then
      let qf1 := qf0.setSlot q (setOccupied new0)
      some (.ok { qf1 with len := qf1.len + 1 })
    else
      let qf1 := if !isOccupied slot then qf0.setSlot q (setOccupied slot) else qf0
      match qf1.findRun fuel q with
      | none => none
      | some start =>
        let afterScan : Option (Option (QF × Nat × Nat)) :=
          if isOccupied slot then
            match qf1.addScan fuel start r with
            | none => none
            | some none => some none
            | some (some index) =>
              if index == start then
                some (some (qf1.setSlot start (setContinuation (qf1.getSlot start)),
                  index, new0))
              else some (some (qf1, index, setContinuation new0))
          else some (some (qf1, start, new0))
        match afterScan with
        | none => none
        | some none => some (.ok qf1)
        | some (some (qf2, index, new1)) =>
          let new2 := if index != q then setShifted new1 else new1
          match qf2.insertLoop fuel index new2 with
          | none => none
          | some qf3 => some (.ok { qf3 with len := qf3.len + 1 })

/-- `func (q *QuotientFilter) AddAll(keys []string) error` (src/qf.go):
fold `Add` over the keys' hashes, short-circuiting on the first error. -/
def goAddAll (fuel : Nat) (qf : QF) (hs : List Nat) : Option AddResult :=
  match hs with
  | [] => some (.ok qf)
  | h :: rest =>
    match goAdd fuel qf h with
    | none => none
    | some (.full qf') => some (.full qf')
    | some (.ok qf') => goAddAll fuel qf' rest

/-- `type Iterator struct` (src/unnamed/part_001).  `visited` is an `int64`
that only ever counts up from 0, embedded as `Nat`. -/
structure Iterator where
  qf : QF
  visited : Nat
  index : Nat
  quotient : Nat
deriving Repr, DecidableEq

/-- `func NewIterator(qf *QuotientFilter) Iterator` (src/unnamed/part_001). -/
def newIterator (qf : QF) : Iterator := { qf := qf, visited := 0, index := 0, quotient := 0 }

/-- `func (i Iterator) HasNext() bool` — `uint64(i.visited) < i.qf.len`. -/
def Iterator.hasNext (i : Iterator) : Bool := i.visited < i.qf.len

/-- Body of `func (i Iterator) Next() uint64` (src/unnamed/part_001): the
scan loop over slots, returning the emitted fingerprint together with the
updated copy of the receiver.  The receiver is a value (not a pointer), a
fact the caller-side model `goIterLoop` accounts for. -/
def Iterator.nextLoop : Nat → Iterator → Option (Nat × Iterator)
  | 0, _ => none
  | fuel + 1, it =>
    let slot := it.qf.getSlot it.index
    let step : Option Iterator :=
      if isClusterStart slot then some { it with quotient := it.index }
      else if isRunStart slot then
        match it.qf.seekOccupied (fuel + 1) it.quotient with
        | none => none
        | some quot => some { it with quotient := quot }
      else some it
    match step with
    | none => none
    | some it1 =>
      let it2 := { it1 with index := it1.qf.next it1.index }
      if !isEmptySlot slot then
        some (shl64 it2.quotient it2.qf.rbits ||| getRemainder slot,
          { it2 with visited := it2.visited + 1 })
      else it2.nextLoop fuel

/-- The Go caller loop `for it.HasNext() { out = append(out, it.Next()) }`,
bounded to `n` iterations.  `HasNext` and `Next` are declared on a VALUE
receiver `(i Iterator)`, so the mutations `i.visited++`, `i.index = ...`,
`i.quotient = ...` inside `Next` act on a copy and are discarded when the
call returns: the caller's iterator never changes between calls. -/
def goIterLoop (fuel : Nat) : Nat → Iterator → List Nat
  | 0, _ => []
  | n + 1, it =>
    if it.hasNext then
      match it.nextLoop fuel with
      | some (v, _) => v :: goIterLoop fuel n it
      | none => []
    else []

/-- Filter states reachable from `New` by a sequence of (successful or
failed) `Add` calls.  A `full` return leaves the receiver unchanged, so
only `ok` steps extend the chain. -/
inductive Reachable : QF → Prop
  | base (q r : Nat) (qf : QF) : goNew q r = some qf → Reachable qf
  | step (qf qf' : QF) (fuel h : Nat) :
      Reachable qf → goAdd fuel qf h = some (.ok qf') → Reachable qf'

/-- Bit `n` of the packed buffer, in the little-endian word/bit order the
code uses: bit `n % 64` of word `n / 64`. -/
def dBit (d : List Nat) (n : Nat) : Bool := (wordAt d (n / 64)).testBit (n % 64)

theorem maskLower_eq (e : Nat) : maskLower e = 2 ^ min e 64 - 1 := by
  unfold maskLower shl64 M64
  rw [Nat.shiftLeft_eq, Nat.one_mul]
  rcases Nat.lt_or_ge e 64 with he | he
  · have h2 : 2 ^ e < 2 ^ 64 := Nat.pow_lt_pow_right (by norm_num) he
    have h1 : (1 : Nat) ≤ 2 ^ e := Nat.one_le_two_pow
    rw [Nat.min_eq_left (Nat.le_of_lt he), Nat.mod_eq_of_lt h2]
    omega
  · have hz : 2 ^ e % 2 ^ 64 = 0 :=
      Nat.mod_eq_zero_of_dvd (pow_dvd_pow 2 he)
    rw [Nat.min_eq_right he]
    omega

theorem maskLower_testBit (e j : Nat) : (maskLower e).testBit j = decide (j < min e 64) := by
  rw [maskLower_eq]; simp

theorem maskLower_lt (e : Nat) : maskLower e < 2 ^ 64 := by
  rw [maskLower_eq]
  have : 2 ^ min e 64 ≤ 2 ^ 64 := Nat.pow_le_pow_right (by norm_num) (Nat.min_le_right e 64)
  have : 1 ≤ 2 ^ min e 64 := Nat.one_le_two_pow
  omega

theorem shl64_testBit (x k j : Nat) :
    (shl64 x k).testBit j = (decide (j < 64) && decide (k ≤ j) && x.testBit (j - k)) := by
  simp only [shl64, M64, Nat.testBit_mod_two_pow, Nat.testBit_shiftLeft, ge_iff_le]
  rw [Bool.and_assoc]

theorem shl64_lt (x k : Nat) : shl64 x k < 2 ^ 64 := by
  have h : 0 < M64 := by norm_num [M64]
  have := Nat.mod_lt (x <<< k) h
  simpa [shl64, M64] using this

theorem testBit_of_high {x n j : Nat} (hx : x < 2 ^ n) (h : n ≤ j) : x.testBit j = false :=
  Nat.testBit_lt_two_pow (Nat.lt_of_lt_of_le hx (Nat.pow_le_pow_right (by norm_num) h))

theorem comp64_testBit {x : Nat} (hx : x < 2 ^ 64) (j : Nat) :
    (comp64 x).testBit j = (decide (j < 64) && !x.testBit j) := by
  simp only [comp64, M64, Nat.testBit_xor, Nat.testBit_two_pow_sub_one]
  rcases Nat.lt_or_ge j 64 with hj | hj
  · simp [hj]
  · simp [Nat.not_lt.mpr hj, Nat.not_lt.mpr hj |> fun _ => testBit_of_high hx hj]

theorem comp64_lt {x : Nat} (hx : x < 2 ^ 64) : comp64 x < 2 ^ 64 :=
  Nat.xor_lt_two_pow hx (by norm_num [M64])

theorem wordAt_lt {d : List Nat} (hd : ∀ w ∈ d, w < 2 ^ 64) (i : Nat) :
    wordAt d i < 2 ^ 64 := by
  unfold wordAt
  rcases Nat.lt_or_ge i d.length with h | h
  · rw [List.getD_eq_getElem?_getD, List.getElem?_eq_getElem h]
    exact hd _ (List.getElem_mem h)
  · rw [List.getD_eq_getElem?_getD, List.getElem?_eq_none h]
    norm_num

theorem wordAt_set_self {d : List Nat} {i : Nat} (h : i < d.length) (v : Nat) :
    wordAt (setWord d i v) i = v := by
  unfold wordAt setWord
  rw [List.getD_eq_getElem?_getD, List.getElem?_set_self h]
  rfl

theorem wordAt_set_ne (d : List Nat) {i j : Nat} (h : i ≠ j) (v : Nat) :
    wordAt (setWord d i v) j = wordAt d j := by
  unfold wordAt setWord
  rw [List.getD_eq_getElem?_getD, List.getElem?_set_ne h, ← List.getD_eq_getElem?_getD]

theorem setWord_length (d : List Nat) (i v : Nat) : (setWord d i v).length = d.length :=
  List.length_set d i v

theorem setWord_words {d : List Nat} (hd : ∀ w ∈ d, w < 2 ^ 64) {v : Nat}
    (hv : v < 2 ^ 64) (i : Nat) : ∀ w ∈ setWord d i v, w < 2 ^ 64 := by
  intro w hw
  rcases List.mem_or_eq_of_mem_set hw with h | h
  · exact hd _ h
  · omega

theorem setSlot_qbits (qf : QF) (i v : Nat) : (qf.setSlot i v).qbits = qf.qbits := by
  simp only [QF.setSlot]; split <;> rfl

theorem setSlot_rbits (qf : QF) (i v : Nat) : (qf.setSlot i v).rbits = qf.rbits := by
  simp only [QF.setSlot]; split <;> rfl

theorem setSlot_len (qf : QF) (i v : Nat) : (qf.setSlot i v).len = qf.len := by
  simp only [QF.setSlot]; split <;> rfl

theorem setSlot_cap (qf : QF) (i v : Nat) : (qf.setSlot i v).cap = qf.cap := by
  simp only [QF.cap, setSlot_qbits]

theorem insertLoop_shape {fuel : Nat} {qf : QF} {pos cur : Nat} {qf' : QF}
    (hins : qf.insertLoop fuel pos cur = some qf') :
    qf'.qbits = qf.qbits ∧ qf'.rbits = qf.rbits ∧ qf'.len = qf.len := by
  induction fuel generalizing qf pos cur with
  | zero => simp [QF.insertLoop] at hins
  | succ n ih =>
    simp only [QF.insertLoop] at hins
    split at hins
    · cases hins
      exact ⟨setSlot_qbits .., setSlot_rbits .., setSlot_len ..⟩
    · have := ih hins
      simpa only [setSlot_qbits, setSlot_rbits, setSlot_len] using this

theorem goAdd_ok_shape {fuel : Nat} {qf : QF} {h : Nat} {qf' : QF}
    (hadd : goAdd fuel qf h = some (.ok qf')) :
    qf'.qbits = qf.qbits ∧ qf'.rbits = qf.rbits ∧
      (qf'.len = qf.len + 1 ∨ qf'.len = qf.len) ∧ qf.len < qf.cap := by
  unfold goAdd at hadd
  split at hadd
  · simp at hadd
  next hlt =>
  have hcap : qf.len < qf.cap := Nat.lt_of_not_ge hlt
  simp only [] at hadd
  split at hadd
  · cases hadd
    refine ⟨?_, ?_, Or.inl ?_, hcap⟩ <;> simp [setSlot_qbits, setSlot_rbits, setSlot_len]
  next hempty =>
  generalize hqf1 : (if (!isOccupied (qf.getSlot (qf.quotientAndRemainder h).1)) = true then
      qf.setSlot (qf.quotientAndRemainder h).1
        (setOccupied (qf.getSlot (qf.quotientAndRemainder h).1))
    else qf) = qf1 at hadd
  have h1 : qf1.qbits = qf.qbits ∧ qf1.rbits = qf.rbits ∧ qf1.len = qf.len := by
    rw [← hqf1]; split <;> simp [setSlot_qbits, setSlot_rbits, setSlot_len]
  cases hfr : QF.findRun fuel qf1 (qf.quotientAndRemainder h).1 with
  | none => rw [hfr] at hadd; simp at hadd
  | some start =>
  rw [hfr] at hadd
  simp only [] at hadd
  have step2 : ∀ qf2 index new1,
      (qf2 = qf1 ∨ qf2 = qf1.setSlot start (setContinuation (qf1.getSlot start))) →
      (match qf2.insertLoop fuel index (if (index != (qf.quotientAndRemainder h).1) = true
          then setShifted new1 else new1) with
        | none => none
        | some qf3 => some (AddResult.ok
            { qbits := qf3.qbits, rbits := qf3.rbits, len := qf3.len + 1, data := qf3.data }))
        = some (AddResult.ok qf') →
      qf'.qbits = qf.qbits ∧ qf'.rbits = qf.rbits ∧
        (qf'.len = qf.len + 1 ∨ qf'.len = qf.len) ∧ qf.len < qf.cap := by
    intro qf2 index new1 hqf2 htail
    have h2 : qf2.qbits = qf.qbits ∧ qf2.rbits = qf.rbits ∧ qf2.len = qf.len := by
      rcases hqf2 with rfl | rfl
      · exact h1
      · simpa [setSlot_qbits, setSlot_rbits, setSlot_len] using h1
    cases hins : qf2.insertLoop fuel index (if (index != (qf.quotientAndRemainder h).1) = true
        then setShifted new1 else new1) with
    | none => rw [hins] at htail; simp at htail
    | some qf3 =>
      rw [hins] at htail
      simp only [Option.some.injEq] at htail
      have h3 := insertLoop_shape hins
      cases htail
      exact ⟨by simp [h3.1, h2.1], by simp [h3.2.1, h2.2.1],
        Or.inl (by simp [h3.2.2, h2.2.2]), hcap⟩
  by_cases hocc : isOccupied (qf.getSlot (qf.quotientAndRemainder h).1) = true
  · rw [if_pos hocc] at hadd
    cases hsc : QF.addScan fuel qf1 start (qf.quotientAndRemainder h).2 with
    | none => rw [hsc] at hadd; simp at hadd
    | some o =>
      rw [hsc] at hadd
      cases o with
      | none =>
        simp only [Option.some.injEq, AddResult.ok.injEq] at hadd
        subst hadd
        exact ⟨h1.1, h1.2.1, Or.inr h1.2.2, hcap⟩
      | some index =>
        simp only [] at hadd
        by_cases hidx : (index == start) = true
        · rw [if_pos hidx] at hadd
          try simp only [] at hadd
          exact step2 _ index _ (Or.inr rfl) hadd
        · rw [if_neg hidx] at hadd
          try simp only [] at hadd
          exact step2 _ index _ (Or.inl rfl) hadd
  · rw [if_neg hocc] at hadd
    try simp only [] at hadd
    exact step2 _ start _ (Or.inl rfl) hadd

theorem reachable_len_le_cap {qf : QF} (hreach : Reachable qf) : qf.len ≤ qf.cap := by
  induction hreach with
  | base q r qf0 hnew =>
    unfold goNew at hnew
    split at hnew
    · simp at hnew
    · simp only [] at hnew
      split at hnew
      · simp at hnew
      · cases hnew; exact Nat.zero_le _
  | step qf0 qf1 fuel h _ hadd ih =>
    have hs := goAdd_ok_shape hadd
    have hcap : qf1.cap = qf0.cap := by simp [QF.cap, hs.1]
    rcases hs.2.2.1 with hl | hl <;> omega

theorem goAdd_no_full {fuel : Nat} {qf : QF} {h : Nat}
    (hlt : qf.len < qf.cap) {qf' : QF} : goAdd fuel qf h ≠ some (.full qf') := by
  intro hfull
  unfold goAdd at hfull
  rw [if_neg (by omega)] at hfull
  simp only [] at hfull
  split at hfull
  · simp at hfull
  next hempty =>
  generalize hqf1 : (if (!isOccupied (qf.getSlot (qf.quotientAndRemainder h).1)) = true then
      qf.setSlot (qf.quotientAndRemainder h).1
        (setOccupied (qf.getSlot (qf.quotientAndRemainder h).1))
    else qf) = qf1 at hfull
  cases hfr : QF.findRun fuel qf1 (qf.quotientAndRemainder h).1 with
  | none => rw [hfr] at hfull; simp at hfull
  | some start =>
  rw [hfr] at hfull
  simp only [] at hfull
  have tail : ∀ (qf2 : QF) (index new1 : Nat),
      (match qf2.insertLoop fuel index (if (index != (qf.quotientAndRemainder h).1) = true
          then setShifted new1 else new1) with
        | none => none
        | some qf3 => some (AddResult.ok
            { qbits := qf3.qbits, rbits := qf3.rbits, len := qf3.len + 1, data := qf3.data }))
        ≠ some (AddResult.full qf') := by
    intro qf2 index new1 htail
    cases hins : qf2.insertLoop fuel index (if (index != (qf.quotientAndRemainder h).1) = true
        then setShifted new1 else new1) with
    | none => rw [hins] at htail; simp at htail
    | some qf3 => rw [hins] at htail; simp at htail
  by_cases hocc : isOccupied (qf.getSlot (qf.quotientAndRemainder h).1) = true
  · rw [if_pos hocc] at hfull
    cases hsc : QF.addScan fuel qf1 start (qf.quotientAndRemainder h).2 with
    | none => rw [hsc] at hfull; simp at hfull
    | some o =>
      rw [hsc] at hfull
      cases o with
      | none => simp at hfull
      | some index =>
        simp only [] at hfull
        by_cases hidx : (index == start) = true
        · rw [if_pos hidx] at hfull
          try simp only [] at hfull
          exact tail _ index _ hfull
        · rw [if_neg hidx] at hfull
          try simp only [] at hfull
          exact tail _ index _ hfull
  · rw [if_neg hocc] at hfull
    try simp only [] at hfull
    exact tail _ start _ hfull

/-- C2: for every reachable filter state and every key (entering through its
hash `h`), `Add` returns `ErrFull` if and only if `len = cap` at the call,
and in that case the whole filter state — `len` and every data word — is
unchanged (the `full` result carries the receiver state back). -/
theorem C2_add_full_iff (qf : QF) (hreach : Reachable qf) (fuel h : Nat) (qf' : QF) :
    goAdd fuel qf h = some (.full qf') ↔ (qf.len = qf.cap ∧ qf' = qf) := by
  constructor
  · intro hfull
    rcases Nat.lt_or_ge qf.len qf.cap with hlt | hge
    · exact absurd hfull (goAdd_no_full hlt)
    · have hres : goAdd fuel qf h = some (.full qf) := by
        unfold goAdd; rw [if_pos hge]
      rw [hres] at hfull
      simp only [Option.some.injEq, AddResult.full.injEq] at hfull
      exact ⟨Nat.le_antisymm (reachable_len_le_cap hreach) hge, hfull.symm⟩
  · rintro ⟨hlen, rfl⟩
    unfold goAdd
    rw [if_pos (Nat.le_of_eq hlen.symm)]

/-- Witness for C2: the capacity-2 filter `New(1,1)` after adding the two
fingerprints 0 and 2 is reachable and full; a further `Add` returns
`ErrFull` with the state unchanged. -/
theorem C2_add_full_iff_witness :
    goAdd 10 (⟨1, 1, 2, [17]⟩ : QF) 5 = some (.full ⟨1, 1, 2, [17]⟩) := by
  have r0 : Reachable ⟨1, 1, 0, [0]⟩ := Reachable.base 1 1 _ (by decide)
  have r1 : Reachable ⟨1, 1, 1, [1]⟩ := Reachable.step _ _ 10 0 r0 (by decide)
  have r2 : Reachable ⟨1, 1, 2, [17]⟩ := Reachable.step _ _ 10 2 r1 (by decide)
  exact (C2_add_full_iff _ r2 10 5 _).mpr ⟨by decide, rfl⟩

/-- C4: `uint64Size` is documented by the spec as the number of 64-bit words
`ceil(capacity * slot_bits / 64)`, but the code computes the number of
8-bit BYTES `ceil(capacity * slot_bits / 8)` and passes it to
`make([]uint64, ...)`.  At `q = 3`, `r = 1` (32 payload bits) the code
allocates 4 words where the spec requires `ceil(32/64) = 1`. -/
theorem C4_uint64Size_is_byte_count :
    uint64Size 3 1 = 4 ∧
      (goNew 3 1).map (fun qf => qf.data.length) = some 4 ∧
      (2 ^ 3 * (1 + 3) + 63) / 64 = 1 := by
  refine ⟨by decide, ?_, by norm_num⟩
  decide

/-- C8: `isRunStart` as written is `isContinuation && (isOccupied ||
isShifted)`; the spec formula is `¬continuation ∧ (occupied ∨ shifted)`.
They disagree on the slot value 4 (shifted, not a continuation — the head
of a shifted run): the code says `false`, the spec formula says `true`. -/
theorem C8_isRunStart_negation_missing :
    isRunStart 4 = false ∧ (!isContinuation 4 && (isOccupied 4 || isShifted 4)) = true := by
  decide

/-- C5: `HasNext` and `Next` are declared on a value receiver, so the
`visited`/`index`/`quotient` updates inside `Next` are lost when the call
returns.  On the filter holding exactly the two fingerprints 1 and 6
(built by `Add` from `New(2,2)`), the Go iteration loop returns the
fingerprint 1 on every call and never terminates: three pulls yield
`[1, 1, 1]`, not the two distinct stored fingerprints once each. -/
theorem C5_iterator_never_advances :
    goNew 2 2 = some ⟨2, 2, 0, [0, 0, 0]⟩ ∧
      goAddAll 10 ⟨2, 2, 0, [0, 0, 0]⟩ [1, 6] = some (.ok ⟨2, 2, 2, [553, 0, 0]⟩) ∧
      (⟨2, 2, 2, [553, 0, 0]⟩ : QF).len = 2 ∧
      goIterLoop 10 3 (newIterator ⟨2, 2, 2, [553, 0, 0]⟩) = [1, 1, 1] := by
  refine ⟨by decide, by decide, by decide, by decide⟩

/-- C10: `Contains` mutates nothing: whenever it returns, the filter state
it hands back is the one it received — same `len`, same `data` words (and
hence the same capacity, which is derived from `qbits`).  The abstracted
hasher is outside this state, matching the claim's allowance for the
hasher's transient state. -/
theorem C10_contains_frame (fuel : Nat) (qf : QF) (h : Nat) (b : Bool) (qf' : QF)
    (hc : goContains fuel qf h = some (b, qf')) :
    qf' = qf ∧ qf'.len = qf.len ∧ qf'.data = qf.data ∧ qf'.cap = qf.cap := by
  have heq : qf' = qf := by
    unfold goContains at hc
    simp only [] at hc
    split at hc
    · simp only [Option.some.injEq, Prod.mk.injEq] at hc
      exact hc.2.symm
    · cases hfr : QF.findRun fuel qf (qf.quotientAndRemainder h).1 with
      | none => rw [hfr] at hc; simp at hc
      | some start =>
        rw [hfr] at hc
        simp only [Option.pure_def, Option.bind_eq_bind, Option.some_bind] at hc
        cases hcs : QF.containsScan fuel qf start (qf.quotientAndRemainder h).2 with
        | none => rw [hcs] at hc; simp at hc
        | some bb =>
          rw [hcs] at hc
          simp only [Option.some_bind, Option.some.injEq, Prod.mk.injEq] at hc
          exact hc.2.symm
  exact ⟨heq, by rw [heq], by rw [heq], by rw [heq]⟩

/-- Witness for C10: a concrete `Contains` call on the two-element filter
from the C5 scenario returns `true` and hands back the identical state. -/
theorem C10_contains_frame_witness :
    (⟨2, 2, 2, [553, 0, 0]⟩ : QF) = ⟨2, 2, 2, [553, 0, 0]⟩ ∧
      ((⟨2, 2, 2, [553, 0, 0]⟩ : QF)).len = (⟨2, 2, 2, [553, 0, 0]⟩ : QF).len :=
  ⟨(C10_contains_frame 10 ⟨2, 2, 2, [553, 0, 0]⟩ 1 true ⟨2, 2, 2, [553, 0, 0]⟩
      (by decide)).1,
    (C10_contains_frame 10 ⟨2, 2, 2, [553, 0, 0]⟩ 6 true ⟨2, 2, 2, [553, 0, 0]⟩
      (by decide)).2.1⟩

theorem wrap64_eq_self {z : Int} (h0 : 0 ≤ z) (h1 : z < 2 ^ 63) : wrap64 z = z := by
  unfold wrap64
  omega

/-- Within the claim-C3 parameter range, the spill into the next word is
always fewer than 64 bits (`off + slot_bits < 128`), even for the
degenerate 65/66-bit slots at `r ∈ {62, 63}`. -/
theorem off_add_S_lt {q r i : Nat} (hq : 1 ≤ q) (hr : 1 ≤ r) (hqr : q + r ≤ 64)
    (hi : i < 2 ^ q) : (r + 3) * i % 64 + (r + 3) < 128 := by
  rcases Nat.lt_or_ge r 62 with h | h
  · have : (r + 3) * i % 64 < 64 := Nat.mod_lt _ (by norm_num)
    omega
  · have hq2 : q ≤ 2 := by omega
    have hcap : 2 ^ q ≤ 4 := by
      calc 2 ^ q ≤ 2 ^ 2 := Nat.pow_le_pow_right (by norm_num) hq2
        _ = 4 := by norm_num
    have hi4 : i < 4 := by omega
    rcases (by omega : r = 62 ∨ r = 63) with rfl | rfl
    · have h65 : (62 + 3) * i = 64 * i + i := by ring
      rw [h65]
      omega
    · have h66 : (63 + 3) * i = 64 * i + 2 * i := by ring
      rw [h66]
      omega

/-- In the no-overflow regime `uint64Size` is exactly the ceiling of the
byte count, `ceil(2^q * (r+3) / 8)`, as a natural number. -/
theorem uint64Size_eq {q r : Nat} (hq : 1 ≤ q) (hr : 1 ≤ r) (hqr : q + r ≤ 64)
    (hov : 2 ^ q * (r + 3) < 2 ^ 63) :
    uint64Size q r = ((2 ^ q * (r + 3) + 7) / 8 : Nat) := by
  have hr63 : r ≤ 63 := by omega
  have hmod : (r + 3) % 256 = r + 3 := Nat.mod_eq_of_lt (by omega)
  have hq61 : 2 ^ q < 2 ^ 61 := by
    have h4 : 2 ^ q * 4 ≤ 2 ^ q * (r + 3) := Nat.mul_le_mul_left _ (by omega)
    omega
  have hqn : ((2 ^ q : Nat) : Int) = (2 : Int) ^ q := by push_cast; ring
  have hw1 : wrap64 ((2 : Int) ^ q) = (2 : Int) ^ q := by
    rw [← hqn]
    apply wrap64_eq_self (by positivity)
    have hlt : (2 : Nat) ^ q < 2 ^ 63 := by omega
    calc ((2 ^ q : Nat) : Int) < ((2 ^ 63 : Nat) : Int) := by exact_mod_cast hlt
      _ = 2 ^ 63 := by norm_cast
  unfold uint64Size
  simp only []
  rw [hmod, hw1, ← hqn]
  have hcast : ((2 ^ q : Nat) : Int) * ((r + 3 : Nat) : Int) = ((2 ^ q * (r + 3) : Nat) : Int) := by
    push_cast; ring
  rw [hcast]
  have hw2 : wrap64 ((2 ^ q * (r + 3) : Nat) : Int) = ((2 ^ q * (r + 3) : Nat) : Int) := by
    apply wrap64_eq_self (by positivity)
    exact_mod_cast hov
  rw [hw2]
  have htdiv : ((2 ^ q * (r + 3) : Nat) : Int).tdiv 8 = ((2 ^ q * (r + 3) / 8 : Nat) : Int) := by
    rfl
  have htmod : ((2 ^ q * (r + 3) : Nat) : Int).tmod 8 = ((2 ^ q * (r + 3) % 8 : Nat) : Int) := by
    rfl
  rw [htdiv, htmod]
  by_cases hm : 2 ^ q * (r + 3) % 8 = 0
  · rw [if_neg (by simp [hm])]
    exact_mod_cast (by omega : 2 ^ q * (r + 3) / 8 = (2 ^ q * (r + 3) + 7) / 8)
  · rw [if_pos (by exact_mod_cast hm)]
    exact_mod_cast (by omega : 2 ^ q * (r + 3) / 8 + 1 = (2 ^ q * (r + 3) + 7) / 8)

theorem ssize_eq {qf : QF} (hr63 : qf.rbits ≤ 63) : qf.ssize = qf.rbits + 3 := by
  unfold QF.ssize
  exact Nat.mod_eq_of_lt (by omega)

theorem cap_eq {qf : QF} (hq63 : qf.qbits ≤ 63) : qf.cap = 2 ^ qf.qbits := by
  unfold QF.cap shl64 M64
  rw [Nat.shiftLeft_eq, Nat.one_mul]
  exact Nat.mod_eq_of_lt (Nat.pow_lt_pow_right (by norm_num) (by omega))

theorem slotIndex_eq {qf : QF} (hr63 : qf.rbits ≤ 63)
    {i : Nat} (hbi : (qf.rbits + 3) * i < 2 ^ 63) :
    qf.slotIndex i = ((qf.rbits + 3) * i, (qf.rbits + 3) * i / 64, (qf.rbits + 3) * i % 64,
      (((qf.rbits + 3) * i % 64 : Nat) : Int) + (qf.rbits + 3) - 64) := by
  unfold QF.slotIndex
  rw [ssize_eq hr63]
  have hm : (qf.rbits + 3) * i % M64 = (qf.rbits + 3) * i := by
    apply Nat.mod_eq_of_lt
    have : (2 : Nat) ^ 63 < 2 ^ 64 := by norm_num
    simp only [M64]
    omega
  rw [hm]
  simp only [Prod.mk.injEq]
  refine ⟨trivial, trivial, trivial, ?_⟩
  push_cast
  omega

theorem bitIndex_lt {qf : QF} (hov : 2 ^ qf.qbits * (qf.rbits + 3) < 2 ^ 63)
    {i : Nat} (hi : i < 2 ^ qf.qbits) : (qf.rbits + 3) * i + (qf.rbits + 3) ≤ 2 ^ 63 := by
  have h1 : (qf.rbits + 3) * i + (qf.rbits + 3) = (qf.rbits + 3) * (i + 1) := by ring
  have h2 : (qf.rbits + 3) * (i + 1) ≤ (qf.rbits + 3) * 2 ^ qf.qbits :=
    Nat.mul_le_mul_left _ (by omega)
  have h3 : (qf.rbits + 3) * 2 ^ qf.qbits = 2 ^ qf.qbits * (qf.rbits + 3) := by ring
  omega

theorem sMask_eq {qf : QF} (hr63 : qf.rbits ≤ 63) : qf.sMask = maskLower (qf.rbits + 3) := by
  unfold QF.sMask
  rw [ssize_eq hr63]

/-- Bit `k` of `getSlot i` is bit `slot_bits * i + k` of the buffer, for
`k` below `min slot_bits 64`, and zero above. -/
theorem getSlot_testBit (qf : QF) (hq : 1 ≤ qf.qbits) (hr : 1 ≤ qf.rbits)
    (hqr : qf.qbits + qf.rbits ≤ 64) (hov : 2 ^ qf.qbits * (qf.rbits + 3) < 2 ^ 63)
    (hwords : ∀ w ∈ qf.data, w < 2 ^ 64)
    {i : Nat} (hi : i < 2 ^ qf.qbits) (k : Nat) :
    (qf.getSlot i).testBit k =
      (decide (k < min (qf.rbits + 3) 64) &&
        dBit qf.data ((qf.rbits + 3) * i + k)) := by
  have hr63 : qf.rbits ≤ 63 := by omega
  have hbiS : (qf.rbits + 3) * i + (qf.rbits + 3) ≤ 2 ^ 63 := bitIndex_lt hov hi
  have hbi : (qf.rbits + 3) * i < 2 ^ 63 := by omega
  have hslot := slotIndex_eq hr63 hbi
  have hspill : (qf.rbits + 3) * i % 64 + (qf.rbits + 3) < 128 := off_add_S_lt hq hr hqr hi
  set S := qf.rbits + 3 with hS
  set b := S * i with hb
  set off := b % 64 with hoff
  set w := b / 64 with hwdef
  have hoff64 : off < 64 := Nat.mod_lt _ (by norm_num)
  have hdm : b = 64 * w + off := by rw [hoff, hwdef]; omega
  unfold QF.getSlot
  rw [hslot]
  simp only [sMask_eq hr63, ssize_eq hr63, ← hS, ← hoff, ← hwdef]
  rcases Nat.lt_or_ge 64 (off + S) with hsp | hsp
  · -- the slot spans the word boundary
    rw [if_pos (by push_cast; omega)]
    have hnb : ((off : Int) + ((qf.rbits : Int) + 3) - 64).toNat = off + S - 64 := by
      push_cast; omega
    rw [hnb]
    have hsub : S - (off + S - 64) = 64 - off := by omega
    rw [hsub]
    simp only [Nat.testBit_or, Nat.testBit_and, Nat.testBit_shiftRight, maskLower_testBit,
      shl64_testBit]
    rcases Nat.lt_or_ge k (64 - off) with hk1 | hk1
    · have hdb : dBit qf.data (b + k) = (wordAt qf.data w).testBit (off + k) := by
        unfold dBit wordAt
        have h1 : (b + k) / 64 = w := by omega
        have h2 : (b + k) % 64 = off + k := by omega
        rw [h1, h2]
      have e3 : decide (64 ≤ k + off) = false := decide_eq_false (by omega)
      by_cases hk : k < S ⊓ 64
      · have e1 : decide (k < S) = true := decide_eq_true (by omega)
        have e2 : decide (k < 64) = true := decide_eq_true (by omega)
        simp [hdb, e1, e2, e3]
      · have e1 : decide (k < S) = false := decide_eq_false (by omega)
        simp [e1, e3]
    · rcases Nat.lt_or_ge k 64 with hk2 | hk2
      · have hhigh : (wordAt qf.data w).testBit (off + k) = false :=
          testBit_of_high (wordAt_lt hwords w) (by omega)
        have hdb : dBit qf.data (b + k) = (wordAt qf.data (w + 1)).testBit (k - (64 - off)) := by
          unfold dBit wordAt
          have h1 : (b + k) / 64 = w + 1 := by omega
          have h2 : (b + k) % 64 = k - (64 - off) := by omega
          rw [h1, h2]
        have e2 : decide (k < 64) = true := decide_eq_true hk2
        have e3 : decide (64 ≤ k + off) = true := decide_eq_true (by omega)
        by_cases hkS : k < S
        · have e1 : decide (k < S) = true := decide_eq_true hkS
          have e4 : decide (k - (64 - off) < off + S - 64) = true := decide_eq_true (by omega)
          have e5 : decide (k - (64 - off) < 64) = true := decide_eq_true (by omega)
          simp [hhigh, hdb, e1, e2, e3, e4, e5]
        · have e1 : decide (k < S) = false := decide_eq_false hkS
          have e4 : decide (k - (64 - off) < off + S - 64) = false := decide_eq_false (by omega)
          simp [hhigh, e1, e2, e3, e4]
      · have e2 : decide (k < 64) = false := decide_eq_false (by omega)
        simp [e2]
  · -- the slot fits in one word
    rw [if_neg (by push_cast; omega)]
    simp only [Nat.testBit_and, Nat.testBit_shiftRight, maskLower_testBit]
    rcases Nat.lt_or_ge k S with h1 | h1
    · have hdb : dBit qf.data (b + k) = (wordAt qf.data w).testBit (off + k) := by
        unfold dBit wordAt
        have hd1 : (b + k) / 64 = w := by omega
        have hd2 : (b + k) % 64 = off + k := by omega
        rw [hd1, hd2]
      have e1 : decide (k < S) = true := decide_eq_true h1
      have e2 : decide (k < 64) = true := decide_eq_true (by omega)
      simp [hdb, e1, e2]
    · have e1 : decide (k < S) = false := decide_eq_false (by omega)
      simp [e1]

theorem and_maskLower_lt (v e : Nat) : v &&& maskLower e < 2 ^ min e 64 := by
  apply Nat.and_lt_two_pow
  rw [maskLower_eq]
  have h : 0 < 2 ^ min e 64 := Nat.two_pow_pos _
  omega

theorem setSlot_data_length (qf : QF) (i v : Nat) :
    (qf.setSlot i v).data.length = qf.data.length := by
  simp only [QF.setSlot]
  split <;> simp [setWord_length]

theorem setSlot_words {qf : QF} (hwords : ∀ w ∈ qf.data, w < 2 ^ 64) (i v : Nat) :
    ∀ w ∈ (qf.setSlot i v).data, w < 2 ^ 64 := by
  have he : v &&& qf.sMask < 2 ^ 64 := Nat.and_lt_two_pow _ (maskLower_lt _)
  simp only [QF.setSlot]
  split
  · intro x hx
    rcases List.mem_or_eq_of_mem_set hx with hx1 | rfl
    · rcases List.mem_or_eq_of_mem_set hx1 with hx2 | rfl
      · exact hwords _ hx2
      · exact Nat.or_lt_two_pow
          (Nat.and_lt_two_pow _ (comp64_lt (shl64_lt _ _))) (shl64_lt _ _)
    · apply Nat.or_lt_two_pow
      · exact Nat.and_lt_two_pow _ (comp64_lt (maskLower_lt _))
      · refine Nat.lt_of_le_of_lt ?_ he
        rw [Nat.shiftRight_eq_div_pow]
        exact Nat.div_le_self _ _
  · intro x hx
    rcases List.mem_or_eq_of_mem_set hx with hx1 | rfl
    · exact hwords _ hx1
    · exact Nat.or_lt_two_pow
        (Nat.and_lt_two_pow _ (comp64_lt (shl64_lt _ _))) (shl64_lt _ _)

/-- Complete bit-level description of `setSlot`: bits in
`[slot_bits * i, slot_bits * (i+1))` become the corresponding bits of
`v & slot_mask`; every other bit of the buffer is untouched. -/
theorem setSlot_dBit (qf : QF) (hq : 1 ≤ qf.qbits) (hr : 1 ≤ qf.rbits)
    (hqr : qf.qbits + qf.rbits ≤ 64) (hov : 2 ^ qf.qbits * (qf.rbits + 3) < 2 ^ 63)
    (hwords : ∀ w ∈ qf.data, w < 2 ^ 64)
    (hlen : qf.data.length = (2 ^ qf.qbits * (qf.rbits + 3) + 7) / 8)
    {i : Nat} (hi : i < 2 ^ qf.qbits) (v : Nat) (n : Nat) :
    dBit (qf.setSlot i v).data n =
      if (qf.rbits + 3) * i ≤ n ∧ n < (qf.rbits + 3) * i + (qf.rbits + 3) then
        (v &&& qf.sMask).testBit (n - (qf.rbits + 3) * i)
      else dBit qf.data n := by
  have hr63 : qf.rbits ≤ 63 := by omega
  have hbiS : (qf.rbits + 3) * i + (qf.rbits + 3) ≤ 2 ^ 63 := bitIndex_lt hov hi
  have hbi : (qf.rbits + 3) * i < 2 ^ 63 := by omega
  have hslot := slotIndex_eq hr63 hbi
  have hspill : (qf.rbits + 3) * i % 64 + (qf.rbits + 3) < 128 := off_add_S_lt hq hr hqr hi
  have hcount : (qf.rbits + 3) * i + (qf.rbits + 3) ≤ 2 ^ qf.qbits * (qf.rbits + 3) := by
    have h1 : (qf.rbits + 3) * i + (qf.rbits + 3) = (qf.rbits + 3) * (i + 1) := by ring
    have h2 : (qf.rbits + 3) * (i + 1) ≤ (qf.rbits + 3) * 2 ^ qf.qbits :=
      Nat.mul_le_mul_left _ (by omega)
    have h3 : (qf.rbits + 3) * 2 ^ qf.qbits = 2 ^ qf.qbits * (qf.rbits + 3) := by ring
    omega
  set S := qf.rbits + 3 with hS
  set b := S * i with hb
  set off := b % 64 with hoff
  set w := b / 64 with hwdef
  have hoff64 : off < 64 := Nat.mod_lt _ (by norm_num)
  have hdm : b = 64 * w + off := by rw [hoff, hwdef]; omega
  have hwlen : w < qf.data.length := by rw [hlen]; omega
  have hemask : qf.sMask = maskLower S := sMask_eq hr63
  have helt : v &&& maskLower S < 2 ^ min S 64 := and_maskLower_lt v S
  unfold QF.setSlot
  rw [hslot]
  simp only [hemask, ssize_eq hr63, ← hS, ← hoff, ← hwdef]
  set e := v &&& maskLower S with he
  set W0 := (wordAt qf.data w &&& comp64 (shl64 (maskLower S) off)) ||| shl64 e off with hW0
  have hW0bit : ∀ nj, nj < 64 → W0.testBit nj =
      (if off ≤ nj ∧ nj - off < S then e.testBit (nj - off)
       else (wordAt qf.data w).testBit nj) := by
    intro nj hnj
    rw [hW0]
    simp only [Nat.testBit_or, Nat.testBit_and, comp64_testBit (shl64_lt (maskLower S) off),
      shl64_testBit, maskLower_testBit]
    by_cases hc : off ≤ nj ∧ nj - off < S
    · rw [if_pos hc]
      have d1 : decide (nj < 64) = true := decide_eq_true hnj
      have d2 : decide (off ≤ nj) = true := decide_eq_true hc.1
      have d3a : decide (nj - off < S) = true := decide_eq_true hc.2
      have d3b : decide (nj - off < 64) = true := decide_eq_true (by omega)
      simp [d1, d2, d3a, d3b]
    · rw [if_neg hc]
      rcases Nat.lt_or_ge nj off with hlo | hlo
      · have d2 : decide (off ≤ nj) = false := decide_eq_false (by omega)
        simp [d2, hnj]
      · have hge : S ≤ nj - off := by omega
        have d3a : decide (nj - off < S) = false := decide_eq_false (by omega)
        have dE : e.testBit (nj - off) = false := testBit_of_high helt (by omega)
        simp [d3a, dE, hnj]
  rcases Nat.lt_or_ge 64 (off + S) with hsp | hsp
  · -- spanning write: two words are updated
    rw [if_pos (by push_cast; omega)]
    have hnb : ((off : Int) + ((qf.rbits : Int) + 3) - 64).toNat = off + S - 64 := by
      push_cast; omega
    rw [hnb]
    have hsub : S - (off + S - 64) = 64 - off := by omega
    rw [hsub]
    have hw1len : w + 1 < qf.data.length := by rw [hlen]; omega
    have hskip : wordAt (setWord qf.data w W0) (w + 1) = wordAt qf.data (w + 1) :=
      wordAt_set_ne _ (by omega) _
    rw [hskip]
    set W1 := (wordAt qf.data (w + 1) &&& comp64 (maskLower (off + S - 64))) |||
      (e >>> (64 - off)) with hW1
    have hW1bit : ∀ nj, nj < 64 → W1.testBit nj =
        (if nj < off + S - 64 then e.testBit (64 - off + nj)
         else (wordAt qf.data (w + 1)).testBit nj) := by
      intro nj hnj
      rw [hW1]
      simp only [Nat.testBit_or, Nat.testBit_and, comp64_testBit (maskLower_lt _),
        Nat.testBit_shiftRight, maskLower_testBit]
      by_cases hc : nj < off + S - 64
      · have d1a : decide (nj < off + S - 64) = true := decide_eq_true hc
        have d1b : decide (nj < 64) = true := decide_eq_true hnj
        rw [if_pos hc]
        simp [d1a, d1b]
      · have d1a : decide (nj < off + S - 64) = false := decide_eq_false (by omega)
        have dE : e.testBit (64 - off + nj) = false := testBit_of_high helt (by omega)
        rw [if_neg hc]
        simp [d1a, dE, hnj]
    simp only [dBit]
    rcases Nat.lt_or_ge n (64 * w) with hn | hn
    · -- below both updated words
      have hnw : n / 64 ≠ w + 1 := by omega
      have hnw2 : n / 64 ≠ w := by omega
      rw [wordAt_set_ne _ (by omega) _, wordAt_set_ne _ (by omega) _]
      rw [if_neg (by omega)]
    · rcases Nat.lt_or_ge n (64 * (w + 1)) with hn2 | hn2
      · -- inside word w
        have hnw : n / 64 = w := by omega
        rw [hnw, wordAt_set_ne _ (by omega) _, wordAt_set_self hwlen _]
        rw [hW0bit (n % 64) (Nat.mod_lt _ (by norm_num))]
        by_cases hc : b ≤ n ∧ n < b + S
        · rw [if_pos (by omega), if_pos hc]
          have harg : n % 64 - off = n - b := by omega
          rw [harg]
        · rw [if_neg (by omega), if_neg hc]
      · rcases Nat.lt_or_ge n (64 * (w + 2)) with hn3 | hn3
        · -- inside word w + 1
          have hnw : n / 64 = w + 1 := by omega
          rw [hnw, wordAt_set_self (by rw [setWord_length]; exact hw1len) _]
          rw [hW1bit (n % 64) (Nat.mod_lt _ (by norm_num))]
          by_cases hc : b ≤ n ∧ n < b + S
          · rw [if_pos (by omega), if_pos hc]
            have harg : 64 - off + n % 64 = n - b := by omega
            rw [harg]
          · rw [if_neg (by omega), if_neg hc]
        · -- above both updated words
          have hnw : n / 64 ≠ w + 1 := by omega
          have hnw2 : n / 64 ≠ w := by omega
          rw [wordAt_set_ne _ (by omega) _, wordAt_set_ne _ (by omega) _]
          rw [if_neg (by omega)]
  · -- single-word write
    rw [if_neg (by push_cast; omega)]
    simp only [dBit]
    rcases Nat.lt_or_ge n (64 * w) with hn | hn
    · rw [wordAt_set_ne _ (by omega) _, if_neg (by omega)]
    · rcases Nat.lt_or_ge n (64 * (w + 1)) with hn2 | hn2
      · have hnw : n / 64 = w := by omega
        rw [hnw, wordAt_set_self hwlen _]
        rw [hW0bit (n % 64) (Nat.mod_lt _ (by norm_num))]
        by_cases hc : b ≤ n ∧ n < b + S
        · rw [if_pos (by omega), if_pos hc]
          have harg : n % 64 - off = n - b := by omega
          rw [harg]
        · rw [if_neg (by omega), if_neg hc]
      · rw [wordAt_set_ne _ (by omega) _, if_neg (by omega)]

/-- Combined set/get specification used by several claims: writing a slot
and reading it back yields `v & slot_mask`; every other slot and in fact
every buffer bit outside `[i*slot_bits, (i+1)*slot_bits)` is unchanged. -/
theorem setSlot_getSlot_spec (qf : QF) (hq : 1 ≤ qf.qbits) (hr : 1 ≤ qf.rbits)
    (hqr : qf.qbits + qf.rbits ≤ 64) (hov : 2 ^ qf.qbits * (qf.rbits + 3) < 2 ^ 63)
    (hwords : ∀ w ∈ qf.data, w < 2 ^ 64)
    (hlen : qf.data.length = (2 ^ qf.qbits * (qf.rbits + 3) + 7) / 8)
    {i : Nat} (hi : i < 2 ^ qf.qbits) (v : Nat) :
    (qf.setSlot i v).getSlot i = v &&& qf.sMask ∧
      (∀ j, j < 2 ^ qf.qbits → j ≠ i → (qf.setSlot i v).getSlot j = qf.getSlot j) ∧
      (∀ n, ¬((qf.rbits + 3) * i ≤ n ∧ n < (qf.rbits + 3) * i + (qf.rbits + 3)) →
        dBit (qf.setSlot i v).data n = dBit qf.data n) := by
  have hr63 : qf.rbits ≤ 63 := by omega
  have hq' : 1 ≤ (qf.setSlot i v).qbits := by rw [setSlot_qbits]; exact hq
  have hr' : 1 ≤ (qf.setSlot i v).rbits := by rw [setSlot_rbits]; exact hr
  have hqr' : (qf.setSlot i v).qbits + (qf.setSlot i v).rbits ≤ 64 := by
    rw [setSlot_qbits, setSlot_rbits]; exact hqr
  have hov' : 2 ^ (qf.setSlot i v).qbits * ((qf.setSlot i v).rbits + 3) < 2 ^ 63 := by
    rw [setSlot_qbits, setSlot_rbits]; exact hov
  have hwords' := setSlot_words hwords i v
  have hi' : i < 2 ^ (qf.setSlot i v).qbits := by rw [setSlot_qbits]; exact hi
  have hbit := setSlot_dBit qf hq hr hqr hov hwords hlen hi v
  have hframe : ∀ n, ¬((qf.rbits + 3) * i ≤ n ∧ n < (qf.rbits + 3) * i + (qf.rbits + 3)) →
      dBit (qf.setSlot i v).data n = dBit qf.data n := by
    intro n hn
    rw [hbit n, if_neg hn]
  refine ⟨?_, ?_, hframe⟩
  · -- read-back of the written slot
    apply Nat.eq_of_testBit_eq
    intro k
    have hrd := getSlot_testBit (qf.setSlot i v) hq' hr' hqr' hov' hwords' hi' k
    rw [setSlot_rbits] at hrd
    rw [hrd, hbit ((qf.rbits + 3) * i + k)]
    have helt : v &&& qf.sMask < 2 ^ min (qf.rbits + 3) 64 := by
      rw [sMask_eq hr63]; exact and_maskLower_lt v _
    by_cases hk : k < qf.rbits + 3
    · rw [if_pos (by omega)]
      have harg : (qf.rbits + 3) * i + k - (qf.rbits + 3) * i = k := by omega
      rw [harg]
      by_cases hk64 : k < min (qf.rbits + 3) 64
      · rw [decide_eq_true hk64, Bool.true_and]
      · have hz : (v &&& qf.sMask).testBit k = false := testBit_of_high helt (by omega)
        rw [hz, Bool.and_false]
    · rw [if_neg (by omega)]
      have hz : (v &&& qf.sMask).testBit k = false := testBit_of_high helt (by omega)
      rw [hz, decide_eq_false (show ¬(k < min (qf.rbits + 3) 64) by omega), Bool.false_and]
  · -- frame: every other slot reads the same value
    intro j hj hji
    apply Nat.eq_of_testBit_eq
    intro k
    have hj' : j < 2 ^ (qf.setSlot i v).qbits := by rw [setSlot_qbits]; exact hj
    have hrd := getSlot_testBit (qf.setSlot i v) hq' hr' hqr' hov' hwords' hj' k
    rw [setSlot_rbits] at hrd
    rw [hrd, getSlot_testBit qf hq hr hqr hov hwords hj k]
    by_cases hk : k < min (qf.rbits + 3) 64
    · have hdisj : ¬((qf.rbits + 3) * i ≤ (qf.rbits + 3) * j + k ∧
          (qf.rbits + 3) * j + k < (qf.rbits + 3) * i + (qf.rbits + 3)) := by
        rcases Nat.lt_or_ge j i with hlt | hge
        · have h1 : (qf.rbits + 3) * (j + 1) ≤ (qf.rbits + 3) * i :=
            Nat.mul_le_mul_left _ (by omega)
          have h2 : (qf.rbits + 3) * (j + 1) = (qf.rbits + 3) * j + (qf.rbits + 3) := by ring
          omega
        · have hgt : i < j := by omega
          have h1 : (qf.rbits + 3) * (i + 1) ≤ (qf.rbits + 3) * j :=
            Nat.mul_le_mul_left _ (by omega)
          have h2 : (qf.rbits + 3) * (i + 1) = (qf.rbits + 3) * i + (qf.rbits + 3) := by ring
          omega
      rw [hbit ((qf.rbits + 3) * j + k), if_neg hdisj]
    · rw [decide_eq_false hk, Bool.false_and, Bool.false_and]

/-- C3 (amended with the no-overflow bound `2^q * (r+3) < 2^63`): writing a
slot and reading it back yields `v & slot_mask`; every other slot and in
fact every buffer bit outside `[i*slot_bits, (i+1)*slot_bits)` is
unchanged.  The hypotheses on `data` (length as allocated by `New`, words
below `2^64`) hold for every filter the constructors build. -/
theorem C3_setSlot_getSlot_frame (qf : QF) (hq : 1 ≤ qf.qbits) (hr : 1 ≤ qf.rbits)
    (hqr : qf.qbits + qf.rbits ≤ 64) (hov : 2 ^ qf.qbits * (qf.rbits + 3) < 2 ^ 63)
    (hwords : ∀ w ∈ qf.data, w < 2 ^ 64)
    (hlen : qf.data.length = (2 ^ qf.qbits * (qf.rbits + 3) + 7) / 8)
    {i : Nat} (hi : i < 2 ^ qf.qbits) (v : Nat) (hv : v < 2 ^ 64) :
    (qf.setSlot i v).getSlot i = v &&& qf.sMask ∧
      (∀ j, j < 2 ^ qf.qbits → j ≠ i → (qf.setSlot i v).getSlot j = qf.getSlot j) ∧
      (∀ n, ¬((qf.rbits + 3) * i ≤ n ∧ n < (qf.rbits + 3) * i + (qf.rbits + 3)) →
        dBit (qf.setSlot i v).data n = dBit qf.data n) :=
  setSlot_getSlot_spec qf hq hr hqr hov hwords hlen hi v

/-- Witness for the amended C3 at `q = 2`, `r = 2`, slot 1, value 37, on the
freshly allocated 3-word buffer. -/
theorem C3_setSlot_getSlot_frame_witness :
    ((⟨2, 2, 0, [0, 0, 0]⟩ : QF).setSlot 1 37).getSlot 1 =
        37 &&& (⟨2, 2, 0, [0, 0, 0]⟩ : QF).sMask ∧
      ((⟨2, 2, 0, [0, 0, 0]⟩ : QF).setSlot 1 37).getSlot 3 =
        (⟨2, 2, 0, [0, 0, 0]⟩ : QF).getSlot 3 := by
  have h := C3_setSlot_getSlot_frame ⟨2, 2, 0, [0, 0, 0]⟩ (by norm_num) (by norm_num)
    (by norm_num) (by norm_num) (by decide) (by norm_num) (by norm_num : (1:Nat) < 2 ^ 2)
    37 (by norm_num)
  exact ⟨h.1, h.2.1 3 (by norm_num) (by norm_num)⟩

theorem wordAt_replicate_zero (n i : Nat) : wordAt (List.replicate n 0) i = 0 := by
  unfold wordAt
  rw [List.getD_eq_getElem?_getD, List.getElem?_replicate]
  split <;> rfl

/-- C3 counterexample, as the claim is stated: at the valid parameters
`q = 62`, `r = 2` (so `1 ≤ q`, `1 ≤ r`, `q + r ≤ 64`) the `uint64` product
`esize * index` in `slotIndex` overflows: for `i = 3689348814741910324 <
capacity` the bit index `5 * i` wraps to 4, so `set_slot(i, 1)` lands in
word 0 and changes `get_slot(0)` from 0 to 16 — a slot `j ≠ i` is
modified.  (`New(62,2)` itself survives because `uint64Size`'s `int`
arithmetic wraps to the positive `2^59`.) -/
theorem C3_bitIndex_overflow_counterexample :
    goNew 62 2 = some ⟨62, 2, 0, List.replicate (2 ^ 59) 0⟩ ∧
      (⟨62, 2, 0, List.replicate (2 ^ 59) 0⟩ : QF).cap = 2 ^ 62 ∧
      (3689348814741910324 : Nat) < 2 ^ 62 ∧ (3689348814741910324 : Nat) ≠ 0 ∧
      (⟨62, 2, 0, List.replicate (2 ^ 59) 0⟩ : QF).getSlot 0 = 0 ∧
      ((⟨62, 2, 0, List.replicate (2 ^ 59) 0⟩ : QF).setSlot 3689348814741910324 1).getSlot 0
        = 16 := by
  have hd : (⟨62, 2, 0, List.replicate (2 ^ 59) 0⟩ : QF).data = List.replicate (2 ^ 59) 0 := rfl
  have hU : uint64Size 62 2 = ((2 : Int) ^ 59) := by decide
  have h0 : goNew 62 2 = some ⟨62, 2, 0, List.replicate (2 ^ 59) 0⟩ := by
    unfold goNew
    rw [if_neg (by decide)]
    simp only [hU]
    rw [if_neg (by decide)]
    have ht : ((2 : Int) ^ 59).toNat = 2 ^ 59 := by decide
    rw [ht]
  have hsi0 : (⟨62, 2, 0, List.replicate (2 ^ 59) 0⟩ : QF).slotIndex 0 = (0, 0, 0, -59) := by
    decide
  have hget0 : (⟨62, 2, 0, List.replicate (2 ^ 59) 0⟩ : QF).getSlot 0 = 0 := by
    unfold QF.getSlot
    rw [hsi0]
    simp only []
    rw [if_neg (by decide), wordAt_replicate_zero]
    decide
  have hsi : (⟨62, 2, 0, List.replicate (2 ^ 59) 0⟩ : QF).slotIndex 3689348814741910324 =
      (4, 0, 4, -55) := by decide
  have hset : (⟨62, 2, 0, List.replicate (2 ^ 59) 0⟩ : QF).setSlot 3689348814741910324 1 =
      ⟨62, 2, 0, setWord (List.replicate (2 ^ 59) 0) 0 16⟩ := by
    unfold QF.setSlot
    rw [hsi]
    simp only []
    rw [if_neg (by decide)]
    rw [wordAt_replicate_zero]
    have hW : (0 &&& comp64 (shl64 (⟨62, 2, 0, List.replicate (2 ^ 59) 0⟩ : QF).sMask 4)) |||
        shl64 (1 &&& (⟨62, 2, 0, List.replicate (2 ^ 59) 0⟩ : QF).sMask) 4 = 16 := by decide
    rw [hW]
  have hsi0' : (⟨62, 2, 0, setWord (List.replicate (2 ^ 59) 0) 0 16⟩ : QF).slotIndex 0 =
      (0, 0, 0, -59) := by decide
  have hget0' : (⟨62, 2, 0, setWord (List.replicate (2 ^ 59) 0) 0 16⟩ : QF).getSlot 0 = 16 := by
    unfold QF.getSlot
    rw [hsi0']
    simp only []
    rw [if_neg (by decide)]
    have hw16 : wordAt (setWord (List.replicate (2 ^ 59) 0) 0 16) 0 = 16 := by
      apply wordAt_set_self
      rw [List.length_replicate]
      positivity
    rw [hw16]
    decide
  refine ⟨h0, by decide, by norm_num, by norm_num, hget0, ?_⟩
  rw [hset, hget0']

theorem qMask_eq {qf : QF} (hq63 : qf.qbits ≤ 63) : qf.qMask = 2 ^ qf.qbits - 1 := by
  unfold QF.qMask
  rw [maskLower_eq, Nat.min_eq_left (by omega)]

theorem next_eq {qf : QF} (hq63 : qf.qbits ≤ 63) {pos : Nat} (hpos : pos < 2 ^ qf.qbits) :
    qf.next pos = (pos + 1) % 2 ^ qf.qbits := by
  unfold QF.next
  rw [qMask_eq hq63]
  have h1 : pos + 1 < M64 := by
    have h2 : (2 : Nat) ^ qf.qbits ≤ 2 ^ 63 := Nat.pow_le_pow_right (by norm_num) hq63
    simp only [M64]
    omega
  rw [Nat.mod_eq_of_lt h1, Nat.and_pow_two_sub_one_eq_mod]

theorem getSlot_lt (qf : QF) (i : Nat) : qf.getSlot i < 2 ^ 64 := by
  unfold QF.getSlot
  simp only []
  split
  · exact Nat.or_lt_two_pow (Nat.and_lt_two_pow _ (maskLower_lt _)) (shl64_lt _ _)
  · exact Nat.and_lt_two_pow _ (maskLower_lt _)

theorem insertLoop_succ_empty {qf : QF} {pos cur n : Nat}
    (h : isEmptySlot (qf.getSlot pos) = true) :
    qf.insertLoop (n + 1) pos cur = some (qf.setSlot pos cur) := by
  conv_lhs => rw [QF.insertLoop]
  simp [h]

theorem insertLoop_succ_nonempty {qf : QF} {pos cur n : Nat}
    (h : isEmptySlot (qf.getSlot pos) = false) :
    qf.insertLoop (n + 1) pos cur =
      (qf.setSlot pos (if isOccupied (setShifted (qf.getSlot pos)) then setOccupied cur
        else cur)).insertLoop n (qf.next pos)
        (if isOccupied (setShifted (qf.getSlot pos)) then
          clearOccupied (setShifted (qf.getSlot pos))
         else setShifted (qf.getSlot pos)) := by
  conv_lhs => rw [QF.insertLoop]
  by_cases hocc : isOccupied (setShifted (qf.getSlot pos)) = true
  · simp [h, hocc]
  · simp [h, hocc]

/-- Core of C9: if some slot at circular distance `d < fuel` from `pos` is
empty, the cascade halts within `fuel` iterations (the write at each step
cannot disturb the empty slot, by the frame property of `setSlot`). -/
theorem insertLoop_some_of_empty : ∀ (fuel : Nat) (qf : QF) (pos cur d : Nat),
    1 ≤ qf.qbits → 1 ≤ qf.rbits → qf.qbits + qf.rbits ≤ 64 →
    2 ^ qf.qbits * (qf.rbits + 3) < 2 ^ 63 →
    (∀ w ∈ qf.data, w < 2 ^ 64) →
    qf.data.length = (2 ^ qf.qbits * (qf.rbits + 3) + 7) / 8 →
    pos < 2 ^ qf.qbits → d < fuel → d < 2 ^ qf.qbits →
    isEmptySlot (qf.getSlot ((pos + d) % 2 ^ qf.qbits)) = true →
    (qf.insertLoop fuel pos cur).isSome := by
  intro fuel
  induction fuel with
  | zero => intro qf pos cur d _ _ _ _ _ _ _ hd _ _; omega
  | succ n ih =>
    intro qf pos cur d hq hr hqr hov hwords hlen hpos hd hdcap hempty
    have hq63 : qf.qbits ≤ 63 := by omega
    cases hE : isEmptySlot (qf.getSlot pos) with
    | true =>
      rw [insertLoop_succ_empty hE]
      rfl
    | false =>
      have hdpos : 0 < d := by
        rcases Nat.eq_zero_or_pos d with rfl | hpd
        · rw [Nat.add_zero, Nat.mod_eq_of_lt hpos] at hempty
          rw [hempty] at hE
          cases hE
        · exact hpd
      rw [insertLoop_succ_nonempty hE]
      set tgt := (pos + d) % 2 ^ qf.qbits with htgt
      have htlt : tgt < 2 ^ qf.qbits := Nat.mod_lt _ (Nat.two_pow_pos _)
      have htne : tgt ≠ pos := by
        intro hcon
        rcases Nat.lt_or_ge (pos + d) (2 ^ qf.qbits) with hlt | hge
        · rw [htgt, Nat.mod_eq_of_lt hlt] at hcon
          omega
        · have h2 : pos + d < 2 * 2 ^ qf.qbits := by omega
          have h3 : (pos + d) % 2 ^ qf.qbits = pos + d - 2 ^ qf.qbits := by
            rw [Nat.mod_eq_sub_mod hge, Nat.mod_eq_of_lt (by omega)]
          rw [htgt, h3] at hcon
          omega
      set cur1 := if isOccupied (setShifted (qf.getSlot pos)) then setOccupied cur else cur
        with hcur1
      set prev1 := if isOccupied (setShifted (qf.getSlot pos)) then
          clearOccupied (setShifted (qf.getSlot pos))
        else setShifted (qf.getSlot pos) with hprev1
      have hframe := (setSlot_getSlot_spec qf hq hr hqr hov hwords hlen hpos cur1).2.1
      apply ih (qf.setSlot pos cur1) (qf.next pos) prev1 (d - 1)
      · rw [setSlot_qbits]; exact hq
      · rw [setSlot_rbits]; exact hr
      · rw [setSlot_qbits, setSlot_rbits]; exact hqr
      · rw [setSlot_qbits, setSlot_rbits]; exact hov
      · exact setSlot_words hwords _ _
      · rw [setSlot_data_length, setSlot_qbits, setSlot_rbits]; exact hlen
      · rw [setSlot_qbits, next_eq hq63 hpos]
        exact Nat.mod_lt _ (Nat.two_pow_pos _)
      · omega
      · rw [setSlot_qbits]; omega
      · rw [setSlot_qbits, next_eq hq63 hpos]
        have harith : ((pos + 1) % 2 ^ qf.qbits + (d - 1)) % 2 ^ qf.qbits = tgt := by
          rw [Nat.mod_add_mod, htgt]
          congr 1
          omega
        rw [harith, hframe tgt htlt htne]
        exact hempty

/-- C9: for every well-formed filter state with at least one empty slot,
the shift-right insertion cascade `insert(pos, e)` halts within `capacity`
iterations of its loop (`capacity` fuel suffices). -/
theorem C9_insertLoop_terminates (qf : QF) (hq : 1 ≤ qf.qbits) (hr : 1 ≤ qf.rbits)
    (hqr : qf.qbits + qf.rbits ≤ 64) (hov : 2 ^ qf.qbits * (qf.rbits + 3) < 2 ^ 63)
    (hwords : ∀ w ∈ qf.data, w < 2 ^ 64)
    (hlen : qf.data.length = (2 ^ qf.qbits * (qf.rbits + 3) + 7) / 8)
    {pos : Nat} (hpos : pos < 2 ^ qf.qbits) (e : Nat)
    (hempty : ∃ j, j < 2 ^ qf.qbits ∧ isEmptySlot (qf.getSlot j) = true) :
    (qf.insertLoop qf.cap pos e).isSome := by
  obtain ⟨j, hj, hje⟩ := hempty
  have hq63 : qf.qbits ≤ 63 := by omega
  have hC : 0 < 2 ^ qf.qbits := Nat.two_pow_pos _
  rw [cap_eq hq63]
  apply insertLoop_some_of_empty (2 ^ qf.qbits) qf pos e ((j + 2 ^ qf.qbits - pos) % 2 ^ qf.qbits)
    hq hr hqr hov hwords hlen hpos (Nat.mod_lt _ hC) (Nat.mod_lt _ hC)
  have harith : (pos + (j + 2 ^ qf.qbits - pos) % 2 ^ qf.qbits) % 2 ^ qf.qbits = j := by
    rcases Nat.lt_or_ge (j + 2 ^ qf.qbits - pos) (2 ^ qf.qbits) with hlt | hge
    · rw [Nat.mod_eq_of_lt hlt]
      have hsum : pos + (j + 2 ^ qf.qbits - pos) = j + 2 ^ qf.qbits := by omega
      rw [hsum, Nat.add_mod_right, Nat.mod_eq_of_lt hj]
    · have hx2 : j + 2 ^ qf.qbits - pos < 2 * 2 ^ qf.qbits := by omega
      have hxm : (j + 2 ^ qf.qbits - pos) % 2 ^ qf.qbits = j + 2 ^ qf.qbits - pos - 2 ^ qf.qbits := by
        rw [Nat.mod_eq_sub_mod hge, Nat.mod_eq_of_lt (by omega)]
      rw [hxm]
      have hsum : pos + (j + 2 ^ qf.qbits - pos - 2 ^ qf.qbits) = j := by omega
      rw [hsum, Nat.mod_eq_of_lt hj]
  rw [harith]
  exact hje

/-- Witness for C9 on the one-element filter `⟨2,2,1,[9,0,0]⟩` (fingerprint
1 stored at slot 0): inserting at position 1 with capacity fuel halts. -/
theorem C9_insertLoop_terminates_witness :
    ((⟨2, 2, 1, [9, 0, 0]⟩ : QF).insertLoop (⟨2, 2, 1, [9, 0, 0]⟩ : QF).cap 1 22).isSome := by
  exact C9_insertLoop_terminates ⟨2, 2, 1, [9, 0, 0]⟩ (by norm_num) (by norm_num) (by norm_num)
    (by norm_num) (by decide) (by norm_num) (by norm_num : (1:Nat) < 2 ^ 2) 22
    ⟨1, by norm_num, by decide⟩

/-- Claim C1 fails on the code: a false negative for an added key.  With the
valid parameters q = 1, r = 63 (1 ≤ q, 1 ≤ r, q + r ≤ 64) the slot is
r + 3 = 66 bits wide and does not fit a 64-bit word, so `newSlot` truncates
the stored remainder.  Concretely, New(1, 63) builds the empty filter, adding
the single key with hash 2^62 (quotient 0, remainder 2^62) succeeds with
len = 1 ≤ capacity = 2, yet Contains of that very hash returns false: the
stored slot is 1 (remainder bits all lost), so the scan finds remainder 0
instead of 2^62.  This contradicts the repository's own documentation (the
README's "It never returns false for added keys" and the Contains doc
comment "false negatives are not possible"). -/
theorem C1_contains_false_negative :
    goNew 1 63 = some ⟨1, 63, 0, List.replicate 17 0⟩ ∧
    (⟨1, 63, 0, List.replicate 17 0⟩ : QF).cap = 2 ∧
    goAdd 10 ⟨1, 63, 0, List.replicate 17 0⟩ (2 ^ 62) =
      some (.ok ⟨1, 63, 1, [1, 0, 0, 0, 0, 0, 0, 0, 0, 0, 0, 0, 0, 0, 0, 0, 0]⟩) ∧
    goContains 10 ⟨1, 63, 1, [1, 0, 0, 0, 0, 0, 0, 0, 0, 0, 0, 0, 0, 0, 0, 0, 0]⟩ (2 ^ 62) =
      some (false, ⟨1, 63, 1, [1, 0, 0, 0, 0, 0, 0, 0, 0, 0, 0, 0, 0, 0, 0, 0, 0]⟩) := by
  decide

/-- Claim C6 fails on the code: Add is not idempotent.  Same root cause as the
false negative above: at q = 1, r = 63 the 66-bit slot is truncated to the
word, so the duplicate check inside Add compares the incoming remainder 2^62
against the corrupted stored remainder 0, misses the duplicate, and inserts a
second entry.  Starting from the reachable state New(1, 63) followed by one
successful Add of hash 2^62 (len = 1 < capacity = 2), a second Add of the same
hash returns ok but bumps len from 1 to 2 and changes the data array (slot 1
becomes 24 = continuation + shifted run member), instead of leaving the state
identical.  The code's own duplicate branch (return nil on equal remainder)
shows deduplication is the intent. -/
theorem C6_add_not_idempotent :
    goNew 1 63 = some ⟨1, 63, 0, List.replicate 17 0⟩ ∧
    goAdd 10 ⟨1, 63, 0, List.replicate 17 0⟩ (2 ^ 62) =
      some (.ok ⟨1, 63, 1, [1, 0, 0, 0, 0, 0, 0, 0, 0, 0, 0, 0, 0, 0, 0, 0, 0]⟩) ∧
    (⟨1, 63, 1, [1, 0, 0, 0, 0, 0, 0, 0, 0, 0, 0, 0, 0, 0, 0, 0, 0]⟩ : QF).len <
      (⟨1, 63, 1, [1, 0, 0, 0, 0, 0, 0, 0, 0, 0, 0, 0, 0, 0, 0, 0, 0]⟩ : QF).cap ∧
    goAdd 10 ⟨1, 63, 1, [1, 0, 0, 0, 0, 0, 0, 0, 0, 0, 0, 0, 0, 0, 0, 0, 0]⟩ (2 ^ 62) =
      some (.ok ⟨1, 63, 2, [1, 24, 0, 0, 0, 0, 0, 0, 0, 0, 0, 0, 0, 0, 0, 0, 0]⟩) ∧
    (⟨1, 63, 2, [1, 24, 0, 0, 0, 0, 0, 0, 0, 0, 0, 0, 0, 0, 0, 0, 0]⟩ : QF).len ≠
      (⟨1, 63, 1, [1, 0, 0, 0, 0, 0, 0, 0, 0, 0, 0, 0, 0, 0, 0, 0, 0]⟩ : QF).len ∧
    (⟨1, 63, 2, [1, 24, 0, 0, 0, 0, 0, 0, 0, 0, 0, 0, 0, 0, 0, 0, 0]⟩ : QF).data ≠
      (⟨1, 63, 1, [1, 0, 0, 0, 0, 0, 0, 0, 0, 0, 0, 0, 0, 0, 0, 0, 0]⟩ : QF).data := by
  decide
